import Mathlib

/- Verification of the camera timestamp extraction of
   ibllib/io/extractors/camera.py and of the passive audio extraction of
   ibllib/io/extractors/passive_script_2.py.

   Modelling conventions, used throughout:
   * event times (numpy float arrays) are lists of rationals;
   * numpy integer arrays are lists of naturals or integers;
   * a Python function that can raise (assert failures, IndexError,
     ValueError, broadcast errors) is modelled as returning an Option,
     with `none` for any raised exception;
   * rationals have no NaN or infinity, so the `np.ma.masked_invalid`
     call in `attribute_times` starts from an all-unmasked array, and a
     masked ("consumed") entry is represented by `none`, which is never
     within a finite tolerance, exactly like the `np.inf` fill value. -/

/-- Absolute value on the rationals (`np.abs`), written out so that kernel
evaluation of concrete instances is direct. -/
def absQ (q : ℚ) : ℚ := if q < 0 then -q else q

/-- Policy for `attribute_times`, mirroring its `take` parameter after the
`take not in ('first', 'nearest')` check has rejected anything else. -/
inductive Take
  | first
  | nearest
deriving DecidableEq

/-- Per-reference-entry absolute distances `dx = np.abs(stack.filled() - x)`:
a masked (consumed) entry is `none`; the code's `np.inf` fill makes such an
entry infinitely far, hence never below a finite tolerance. -/
def dists : List ℚ → List Bool → ℚ → List (Option ℚ)
  | [], _, _ => []
  | _ :: _, [], _ => []
  | a :: arr, b :: mask, x => (if b then none else some (absQ (a - x))) :: dists arr mask x

/-- Index of the first unmasked distance strictly below tolerance:
`np.where(dx < tol)[0][0]`, which exists exactly when `dx.min() < tol`. -/
def firstWithin : List (Option ℚ) → ℚ → Option ℕ
  | [], _ => none
  | none :: rest, tol => (firstWithin rest tol).map (· + 1)
  | some q :: rest, tol =>
    if q < tol then some 0 else (firstWithin rest tol).map (· + 1)

/-- First index attaining the minimum unmasked distance: `dx.argmin()`
(numpy returns the first index in case of ties; masked entries are
infinitely far and never attain the minimum). -/
def argminD : List (Option ℚ) → Option (ℕ × ℚ)
  | [] => none
  | none :: rest => (argminD rest).map (fun p => (p.1 + 1, p.2))
  | some q :: rest =>
    match argminD rest with
    | none => some (0, q)
    | some (j, bq) => if q ≤ bq then some (0, q) else some (j + 1, bq)

/-- One step of the `attribute_times` loop: under `dx.min() < tol`, the chosen
reference index (first within tolerance, or globally nearest); `none` when no
unmasked value is within tolerance (the sentinel -1 case). -/
def pickIdx (arr : List ℚ) (mask : List Bool) (x tol : ℚ) : Take → Option ℕ
  | Take.first => firstWithin (dists arr mask x) tol
  | Take.nearest =>
    match argminD (dists arr mask x) with
    | some (j, q) => if q < tol then some j else none
    | none => none

/-- The loop of `attribute_times` over the candidate events, carrying the
mask of consumed reference entries; `stack.mask[idx] = injective` is the
`mask.set idx injective` update. -/
def attrGo (arr : List ℚ) (tol : ℚ) (injective : Bool) (tk : Take) :
    List Bool → List ℚ → List ℤ
  | _, [] => []
  | mask, x :: rest =>
    match pickIdx arr mask x tol tk with
    | some idx => (idx : ℤ) :: attrGo arr tol injective tk (mask.set idx injective) rest
    | none => (-1) :: attrGo arr tol injective tk mask rest

/-- `attribute_times(arr, events, tol, injective, take)` of camera.py: for each
event, the index of the matching entry of `arr` within tolerance, or -1.  The
initial mask is all-unmasked (`np.ma.masked_invalid` masks nothing on finite
input, and rationals are always finite). -/
def attribute_times (arr events : List ℚ) (tol : ℚ := 1/10)
    (injective : Bool := true) (tk : Take := Take.first) : List ℤ :=
  attrGo arr tol injective tk (arr.map fun _ => false) events

/-- Number of matched (non -1) entries of an assignment. -/
def countMatched (l : List ℤ) : ℕ := l.countP (fun z => z != -1)

theorem attrGo_cons_some {arr : List ℚ} {tol : ℚ} {injective : Bool}
    {tk : Take} {mask : List Bool} {x : ℚ} {rest : List ℚ} {i : ℕ}
    (h : pickIdx arr mask x tol tk = some i) :
    attrGo arr tol injective tk mask (x :: rest) =
      (i : ℤ) :: attrGo arr tol injective tk (mask.set i injective) rest := by
  simp only [attrGo, h]

theorem attrGo_cons_none {arr : List ℚ} {tol : ℚ} {injective : Bool}
    {tk : Take} {mask : List Bool} {x : ℚ} {rest : List ℚ}
    (h : pickIdx arr mask x tol tk = none) :
    attrGo arr tol injective tk mask (x :: rest) =
      (-1) :: attrGo arr tol injective tk mask rest := by
  simp only [attrGo, h]

theorem countMatched_cons_nat (i : ℕ) (l : List ℤ) :
    countMatched ((i : ℤ) :: l) = countMatched l + 1 := by
  simp only [countMatched, List.countP_cons]
  rw [if_pos (by simp only [bne_iff_ne, ne_eq]; omega)]

theorem countMatched_cons_neg_one (l : List ℤ) :
    countMatched ((-1) :: l) = countMatched l := by
  simp [countMatched, List.countP_cons]

theorem firstWithin_mem {ds : List (Option ℚ)} {tol : ℚ} {i : ℕ}
    (h : firstWithin ds tol = some i) : ∃ q, ds[i]? = some (some q) ∧ q < tol := by
  induction ds generalizing i with
  | nil => simp [firstWithin] at h
  | cons d rest ih =>
    cases d with
    | none =>
      simp only [firstWithin, Option.map_eq_some'] at h
      obtain ⟨j, hj, rfl⟩ := h
      obtain ⟨q, hq, hlt⟩ := ih hj
      exact ⟨q, by simpa using hq, hlt⟩
    | some q =>
      by_cases hq : q < tol
      · simp only [firstWithin, if_pos hq] at h
        cases h
        exact ⟨q, by simp, hq⟩
      · simp only [firstWithin, if_neg hq, Option.map_eq_some'] at h
        obtain ⟨j, hj, rfl⟩ := h
        obtain ⟨q', hq', hlt⟩ := ih hj
        exact ⟨q', by simpa using hq', hlt⟩

theorem argminD_mem {ds : List (Option ℚ)} {j : ℕ} {q : ℚ}
    (h : argminD ds = some (j, q)) : ds[j]? = some (some q) := by
  induction ds generalizing j q with
  | nil => simp [argminD] at h
  | cons d rest ih =>
    cases d with
    | none =>
      simp only [argminD, Option.map_eq_some'] at h
      obtain ⟨⟨j', q'⟩, hj, heq⟩ := h
      cases heq
      simpa using ih hj
    | some a =>
      simp only [argminD] at h
      split at h
      · cases h
        simp
      · rename_i j' bq heq
        split at h
        · cases h
          simp
        · cases h
          simpa using ih heq

theorem dists_mask {arr : List ℚ} {mask : List Bool} {x : ℚ} {i : ℕ} {q : ℚ}
    (h : (dists arr mask x)[i]? = some (some q)) : mask[i]? = some false := by
  induction arr generalizing mask i with
  | nil => simp [dists] at h
  | cons a arr ih =>
    cases mask with
    | nil => simp [dists] at h
    | cons b mask =>
      cases i with
      | zero =>
        simp only [dists, List.getElem?_cons_zero, Option.some_inj] at h
        cases b with
        | false => simp
        | true => simp at h
      | succ i =>
        simp only [dists, List.getElem?_cons_succ] at h ⊢
        exact ih h

theorem pickIdx_unmasked {arr : List ℚ} {mask : List Bool} {x tol : ℚ}
    {tk : Take} {i : ℕ} (h : pickIdx arr mask x tol tk = some i) :
    mask[i]? = some false := by
  cases tk with
  | first =>
    obtain ⟨q, hq, _⟩ := firstWithin_mem h
    exact dists_mask hq
  | nearest =>
    simp only [pickIdx] at h
    split at h
    · rename_i j q heq
      split at h
      · cases h
        exact dists_mask (argminD_mem heq)
      · cases h
    · cases h

theorem getElem?_set_bool (m : List Bool) (i j : ℕ) (b : Bool) :
    (m.set i b)[j]? = if i = j ∧ j < m.length then some b else m[j]? := by
  induction m generalizing i j with
  | nil => simp
  | cons a t ih =>
    cases i with
    | zero =>
      cases j with
      | zero => simp
      | succ j => simp
    | succ i =>
      cases j with
      | zero => simp [List.set_cons_succ]
      | succ j =>
        simp only [List.set_cons_succ, List.getElem?_cons_succ, List.length_cons, ih i j]
        by_cases hij : i = j ∧ j < t.length
        · rw [if_pos hij, if_pos (by omega)]
        · rw [if_neg hij, if_neg (by omega)]

theorem attrGo_not_mem_masked (arr : List ℚ) (tol : ℚ) (tk : Take) (j : ℕ) :
    ∀ (events : List ℚ) (mask : List Bool), mask[j]? = some true →
      (j : ℤ) ∉ attrGo arr tol true tk mask events := by
  intro events
  induction events with
  | nil => intro mask _; simp [attrGo]
  | cons x rest ih =>
    intro mask hm
    cases hp : pickIdx arr mask x tol tk with
    | none =>
      rw [attrGo_cons_none hp]
      simp only [List.mem_cons, not_or]
      refine ⟨by omega, ih mask hm⟩
    | some i =>
      rw [attrGo_cons_some hp]
      have hunm := pickIdx_unmasked hp
      have hne : i ≠ j := by
        intro hcon
        rw [hcon, hm] at hunm
        cases hunm
      simp only [List.mem_cons, not_or]
      constructor
      · intro hcon
        exact hne (by exact_mod_cast hcon.symm)
      · refine ih (mask.set i true) ?_
        rw [getElem?_set_bool, if_neg (by omega)]
        exact hm

theorem attrGo_filter_nodup (arr : List ℚ) (tol : ℚ) (tk : Take) :
    ∀ (events : List ℚ) (mask : List Bool),
      ((attrGo arr tol true tk mask events).filter (fun z => z != -1)).Nodup := by
  intro events
  induction events with
  | nil => intro mask; simp [attrGo]
  | cons x rest ih =>
    intro mask
    cases hp : pickIdx arr mask x tol tk with
    | none =>
      rw [attrGo_cons_none hp]
      simpa using ih mask
    | some i =>
      rw [attrGo_cons_some hp]
      have hkeep : ((i : ℤ) != -1) = true := by
        simp only [bne_iff_ne, ne_eq]
        omega
      rw [List.filter_cons, if_pos hkeep]
      refine List.Nodup.cons ?_ (ih (mask.set i true))
      intro hmem
      have hmem' : (i : ℤ) ∈ attrGo arr tol true tk (mask.set i true) rest :=
        List.mem_of_mem_filter hmem
      have hunm := pickIdx_unmasked hp
      have hlen : i < mask.length := by
        by_contra hcon
        rw [List.getElem?_eq_none (by omega)] at hunm
        cases hunm
      refine attrGo_not_mem_masked arr tol tk i rest (mask.set i true) ?_ hmem'
      rw [getElem?_set_bool, if_pos ⟨rfl, hlen⟩]

/-- C1: for every reference array, every candidate array, every tolerance and
both take policies, `attribute_times` with `injective = true` returns an
assignment in which no non-(-1) reference index appears more than once. -/
theorem attribute_times_injective_no_duplicates
    (arr events : List ℚ) (tol : ℚ) (tk : Take) :
    ((attribute_times arr events tol true tk).filter (fun z => z != -1)).Nodup :=
  attrGo_filter_nodup arr tol tk events (arr.map fun _ => false)

/-- C2 counterexample: on `reference = [1.0, 1.05, 3.0]`,
`candidates = [1.02, 3.01]`, `tol = 0.1`, injective, `take = 'nearest'`, the
code returns `[0, 2]` (1.0 is 0.02 from 1.02, closer than 1.05 at 0.03), not
`[1, 2]` as claimed. -/
theorem attribute_times_nearest_scenario_counterexample :
    attribute_times [1, 21/20, 3] [51/50, 301/100] (1/10) true Take.nearest = [0, 2] ∧
    attribute_times [1, 21/20, 3] [51/50, 301/100] (1/10) true Take.nearest ≠ [1, 2] := by
  constructor
  · exact of_decide_eq_true (by with_unfolding_all rfl)
  · exact of_decide_eq_true (by with_unfolding_all rfl)

/-- C2 amended: on `reference = [1.0, 1.05, 3.0]`, `candidates = [1.02, 3.01]`,
`tol = 0.1`, injective, `attribute_times` returns `[0, 2]` under `take='first'`
and also `[0, 2]` under `take='nearest'`, since 1.0 is the value nearest
to 1.02. -/
theorem attribute_times_scenario_both_policies :
    attribute_times [1, 21/20, 3] [51/50, 301/100] (1/10) true Take.first = [0, 2] ∧
    attribute_times [1, 21/20, 3] [51/50, 301/100] (1/10) true Take.nearest = [0, 2] := by
  constructor <;> exact of_decide_eq_true (by with_unfolding_all rfl)

/-- C3 counterexample: with `reference = [0, 5]`, `candidates = [4, 0]`,
injective and `take='first'`, tolerance 1.5 matches both candidates but the
larger tolerance 4.5 matches only one: the first candidate consumes reference
index 0, leaving nothing within tolerance for the second. -/
theorem attribute_times_tolerance_not_monotone_injective :
    ((3 : ℚ)/2 ≤ 9/2) ∧
    countMatched (attribute_times [0, 5] [4, 0] (9/2) true Take.first) <
      countMatched (attribute_times [0, 5] [4, 0] (3/2) true Take.first) := by
  constructor
  · norm_num
  · exact of_decide_eq_true (by with_unfolding_all rfl)

theorem firstWithin_mono {ds : List (Option ℚ)} {t1 t2 : ℚ} (ht : t1 ≤ t2)
    {i : ℕ} (h : firstWithin ds t1 = some i) :
    ∃ j, firstWithin ds t2 = some j := by
  induction ds generalizing i with
  | nil => simp [firstWithin] at h
  | cons d rest ih =>
    cases d with
    | none =>
      simp only [firstWithin, Option.map_eq_some'] at h ⊢
      obtain ⟨j, hj, rfl⟩ := h
      obtain ⟨j', hj'⟩ := ih hj
      exact ⟨j' + 1, ⟨j', hj', rfl⟩⟩
    | some q =>
      by_cases h2 : q < t2
      · exact ⟨0, by simp [firstWithin, if_pos h2]⟩
      · have h1 : ¬ q < t1 := fun hcon => h2 (lt_of_lt_of_le hcon ht)
        simp only [firstWithin, if_neg h1, if_neg h2, Option.map_eq_some'] at h ⊢
        obtain ⟨j, hj, rfl⟩ := h
        obtain ⟨j', hj'⟩ := ih hj
        exact ⟨j' + 1, ⟨j', hj', rfl⟩⟩

theorem pickIdx_mono {arr : List ℚ} {mask : List Bool} {x : ℚ} {t1 t2 : ℚ}
    (ht : t1 ≤ t2) {tk : Take} {i : ℕ} (h : pickIdx arr mask x t1 tk = some i) :
    ∃ j, pickIdx arr mask x t2 tk = some j := by
  cases tk with
  | first => exact firstWithin_mono ht h
  | nearest =>
    simp only [pickIdx] at h
    split at h
    · rename_i j q heq
      split at h
      · rename_i hlt
        cases h
        exact ⟨i, by simp only [pickIdx, heq]; rw [if_pos (lt_of_lt_of_le hlt ht)]⟩
      · cases h
    · cases h

theorem set_false_of_all_false {m : List Bool} (h : ∀ b ∈ m, b = false)
    (i : ℕ) : m.set i false = m := by
  induction m generalizing i with
  | nil => simp
  | cons a t ih =>
    cases i with
    | zero =>
      have : a = false := h a (List.mem_cons_self a t)
      simp [this]
    | succ i =>
      simp only [List.set_cons_succ, List.cons.injEq, true_and]
      exact ih (fun b hb => h b (List.mem_cons_of_mem a hb)) i

theorem attrGo_count_mono (arr : List ℚ) (tk : Take) {t1 t2 : ℚ} (ht : t1 ≤ t2) :
    ∀ (events : List ℚ) (mask : List Bool), (∀ b ∈ mask, b = false) →
      countMatched (attrGo arr t1 false tk mask events) ≤
        countMatched (attrGo arr t2 false tk mask events) := by
  intro events
  induction events with
  | nil => intro mask _; simp [attrGo]
  | cons x rest ih =>
    intro mask hmask
    cases hp1 : pickIdx arr mask x t1 tk with
    | some i =>
      obtain ⟨j, hp2⟩ := pickIdx_mono ht hp1
      rw [attrGo_cons_some hp1, attrGo_cons_some hp2,
        set_false_of_all_false hmask i, set_false_of_all_false hmask j,
        countMatched_cons_nat, countMatched_cons_nat]
      exact Nat.add_le_add_right (ih mask hmask) 1
    | none =>
      cases hp2 : pickIdx arr mask x t2 tk with
      | none =>
        rw [attrGo_cons_none hp1, attrGo_cons_none hp2,
          countMatched_cons_neg_one, countMatched_cons_neg_one]
        exact ih mask hmask
      | some j =>
        rw [attrGo_cons_none hp1, attrGo_cons_some hp2,
          set_false_of_all_false hmask j,
          countMatched_cons_neg_one, countMatched_cons_nat]
        exact Nat.le_succ_of_le (ih mask hmask)

/-- C3 amended: with `injective = false` (non-injective assignment), for every
reference array, candidate array and take policy, increasing the tolerance
never decreases the number of matched (non -1) entries.  (With
`injective = true` the claim fails, see the counterexample.) -/
theorem attribute_times_tolerance_monotone_noninjective
    (arr events : List ℚ) (tk : Take) {t1 t2 : ℚ} (h : t1 ≤ t2) :
    countMatched (attribute_times arr events t1 false tk) ≤
      countMatched (attribute_times arr events t2 false tk) := by
  refine attrGo_count_mono arr tk h events (arr.map fun _ => false) ?_
  intro b hb
  simp only [List.mem_map] at hb
  obtain ⟨a, _, rfl⟩ := hb
  rfl

/-- Witness for the amended C3 at a concrete input. -/
theorem attribute_times_tolerance_monotone_noninjective_witness :
    ((1 : ℚ) ≤ 2) ∧
    countMatched (attribute_times [0] [0] 1 false Take.first) ≤
      countMatched (attribute_times [0] [0] 2 false Take.first) :=
  ⟨by norm_num,
    attribute_times_tolerance_monotone_noninjective [0] [0] Take.first (by norm_num)⟩

/-- np.diff: consecutive differences. -/
def diffQ (l : List ℚ) : List ℚ := List.zipWith (fun a b => b - a) l l.tail

/-- all(np.diff(l) > 0): consecutive entries strictly increase. -/
def allDiffPos {α} [LT α] [DecidableRel ((· < ·) : α → α → Prop)] : List α → Bool
  | [] => true
  | [_] => true
  | a :: b :: rest => decide (a < b) && allDiffPos (b :: rest)

theorem allDiffPos_iff_chain {α} [LT α] [DecidableRel ((· < ·) : α → α → Prop)] :
    ∀ (l : List α), allDiffPos l = true ↔ l.Chain' (· < ·)
  | [] => by simp [allDiffPos]
  | [a] => by simp [allDiffPos]
  | a :: b :: rest => by
    rw [List.chain'_cons, ← allDiffPos_iff_chain (b :: rest)]
    simp [allDiffPos]

/-- Insertion of one element into a sorted list (helper for the median). -/
def insertSorted (x : ℚ) : List ℚ → List ℚ
  | [] => [x]
  | y :: ys => if x ≤ y then x :: y :: ys else y :: insertSorted x ys

/-- Insertion sort (helper for the median). -/
def sortQ (l : List ℚ) : List ℚ := l.foldr insertSorted []

/-- np.median of an array: middle element of the sorted data, or the mean of
the two middle elements for even length; `none` models the NaN produced on an
empty array. -/
def medianQ (l : List ℚ) : Option ℚ :=
  let s := sortQ l
  let n := s.length
  if n = 0 then none
  else if n % 2 = 1 then s[n / 2]?
  else
    match s[n / 2 - 1]?, s[n / 2]? with
    | some a, some b => some ((a + b) / 2)
    | _, _ => none

/-- Python's round and np.round: round half to even, to an integer. -/
def roundHalfEven (q : ℚ) : ℤ :=
  let f := ⌊q⌋
  let r := q - f
  if r < 1/2 then f
  else if 1/2 < r then f + 1
  else if f % 2 = 0 then f else f + 1

/-- Clamp a Python slice bound to an array of length n (step-1 slices). -/
def sliceClamp (n : ℕ) (i : ℤ) : ℕ :=
  if i < 0 then (if (n : ℤ) + i < 0 then 0 else ((n : ℤ) + i).toNat)
  else min i.toNat n

/-- Python basic slice l[s:e] with integer bounds. -/
def pySlice {α} (l : List α) (s e : ℤ) : List α :=
  (l.take (sliceClamp l.length e)).drop (sliceClamp l.length s)

/-- numpy fancy indexing l[idxs]: `none` (IndexError) when an index is out of
bounds. -/
def selectIdx {α} (l : List α) : List ℕ → Option (List α)
  | [] => some []
  | i :: is =>
    match l[i]?, selectIdx l is with
    | some x, some rest => some (x :: rest)
    | _, _ => none

theorem selectIdx_length {α} (l : List α) :
    ∀ (is : List ℕ) (r : List α), selectIdx l is = some r → r.length = is.length := by
  intro is
  induction is with
  | nil =>
    intro r h
    cases h
    rfl
  | cons i is ih =>
    intro r h
    simp only [selectIdx] at h
    split at h
    · rename_i x rest hx hrest
      cases h
      simp only [List.length_cons, ih rest hrest]
    · exact Option.noConfusion h

/-- Sync-trace fronts dictionary: 'times' and 'polarities', as produced by
_get_sync_fronts. -/
structure FrontsQ where
  times : List ℚ
  polarities : List ℤ
deriving DecidableEq

/-- Embedded pin-state dictionary: frame 'indices' of the pin-state flips and
their camera-clock 'times'. -/
structure PinStateQ where
  indices : List ℕ
  times : List ℚ
deriving DecidableEq

/-- np.searchsorted(l, v) (left side): on the sorted arrays the code feeds it,
the number of entries strictly below v.  A `none` entry models NaN, which
numpy comparisons never place below v. -/
def searchsorted (l : List (Option ℚ)) (v : ℚ) : ℕ :=
  l.countP (fun x => match x with | some a => decide (a < v) | none => false)

/-- np.searchsorted on a plain rational array (left side). -/
def searchsortedQ (l : List ℚ) (v : ℚ) : ℕ := l.countP (fun a => decide (a < v))

/-- Tail-extension stage of `align_with_audio`: when fewer timestamps remain
than frame counts, append `(np.arange(n_missing) + 1) / frate + ts[-1]` with
`frate = round(1 / np.nanmedian(np.diff(ts)))` if extrapolating, else NaN
(`none`) fills.  The `none` result models the ValueError `round` raises on the
NaN median of an empty diff. -/
def extendTs (ts0 : List ℚ) (ncount : ℕ) (extrapolate : Bool) :
    Option (List (Option ℚ)) :=
  if ts0.length < ncount then
    match medianQ (diffQ ts0), ts0.getLast? with
    | some m, some tl =>
      let frate : ℤ := roundHalfEven (1 / m)
      let nmissing := ncount - ts0.length
      some (ts0.map some ++
        (if extrapolate then
          (List.range nmissing).map (fun (k : ℕ) => some (((k : ℚ) + 1) / (frate : ℚ) + tl))
        else List.replicate nmissing none))
    | _, _ => none
  else some (ts0.map some)

/-- `align_with_audio(timestamps, audio, pin_state, count, extrapolate_missing)`
of camera.py.  The leading asserts, the `start >= 0` assert, the two length
asserts, the fancy indexing `ts[count]` and the final round-trip assert are the
`none` cases.  (Rationals have no infinity: a frame rate that rounds to zero
makes the model divide by zero, yielding 0 where numpy yields inf; this only
affects the values of extrapolated tail entries, never the guard structure or
lengths.) -/
def align_with_audio (timestamps : List ℚ) (audio : FrontsQ)
    (pin_state : PinStateQ) (count : List ℕ)
    (extrapolate_missing : Bool := true) : Option (List (Option ℚ)) :=
  if allDiffPos count && allDiffPos timestamps
      && (pin_state.times.length == audio.times.length) then
    match audio.times.head?, pin_state.indices.head? with
    | some a0, some fu =>
      match count[fu]?, count.getLast? with
      | some cfu, some clast =>
        let first_ttl := searchsortedQ timestamps a0
        let start : ℤ := (first_ttl : ℤ) - (fu : ℤ) - ((cfu : ℤ) - (fu : ℤ))
        if 0 ≤ start then
          match extendTs (pySlice timestamps start ((clast : ℤ) + 1 + start))
              count.length extrapolate_missing with
          | some ts1 =>
            if count.length ≤ ts1.length ∧ ts1.length = clast + 1 then
              match selectIdx ts1 count with
              | some ts2 => if searchsorted ts2 a0 = fu then some ts2 else none
              | none => none
            else none
          | none => none
        else none
      | _, _ => none
    | _, _ => none
  else none

theorem headD_of_head? {α} {l : List α} {a : α} (d : α) (h : l.head? = some a) :
    l.headD d = a := by
  cases l with
  | nil => exact Option.noConfusion h
  | cons x xs =>
    simp only [List.head?, Option.some_inj] at h
    simp [List.headD, h]

/-- C4: whenever `align_with_audio` returns (does not raise), the returned
timestamp array has length exactly `count.length`, and re-locating the first
audio TTL time in the result via sorted search yields exactly the first
pin-state transition index. -/
theorem align_with_audio_length_and_roundtrip
    (timestamps : List ℚ) (audio : FrontsQ) (pin_state : PinStateQ)
    (count : List ℕ) (em : Bool) (out : List (Option ℚ))
    (h : align_with_audio timestamps audio pin_state count em = some out) :
    out.length = count.length ∧
      searchsorted out (audio.times.headD 0) = pin_state.indices.headD 0 := by
  unfold align_with_audio at h
  split at h <;> try exact Option.noConfusion h
  split at h <;> try exact Option.noConfusion h
  rename_i a0 fu ha0 hfu
  split at h <;> try exact Option.noConfusion h
  rename_i cfu clast hcfu hclast
  simp only [] at h
  split at h <;> try exact Option.noConfusion h
  split at h <;> try exact Option.noConfusion h
  rename_i ts1 hext
  split at h <;> try exact Option.noConfusion h
  rename_i hlen
  split at h <;> try exact Option.noConfusion h
  rename_i ts2 hsel
  split at h <;> try exact Option.noConfusion h
  rename_i hss
  cases h
  refine ⟨selectIdx_length _ _ _ hsel, ?_⟩
  rw [headD_of_head? 0 ha0, headD_of_head? 0 hfu]
  exact hss

/-- Witness for C4 at a concrete input. -/
theorem align_with_audio_length_and_roundtrip_witness :
    ([some 10, some 11, some 12] : List (Option ℚ)).length = ([0, 1, 2] : List ℕ).length ∧
      searchsorted [some 10, some 11, some 12] ((FrontsQ.mk [10] [1]).times.headD 0) =
        (PinStateQ.mk [0] [10]).indices.headD 0 :=
  align_with_audio_length_and_roundtrip [10, 11, 12] ⟨[10], [1]⟩ ⟨[0], [10]⟩
    [0, 1, 2] true [some 10, some 11, some 12]
    (of_decide_eq_true (by with_unfolding_all rfl))

/-- GPIO dictionary of load_embedded_frame_data: frame 'indices' of the
pin-state flips and their 'polarities'. -/
structure GpioQ where
  indices : List ℕ
  polarities : List ℤ
deriving DecidableEq

/-- numpy boolean indexing l[mask] for a mask of the same length. -/
def filterByMask {α} (l : List α) (m : List Bool) : List α :=
  ((l.zip m).filter (fun p => p.2)).map (fun p => p.1)

/-- np.all(np.abs(np.diff(polarities)) == 2): the fronts strictly alternate. -/
def alternatingPol : List ℤ → Bool
  | [] => true
  | [_] => true
  | a :: b :: rest => decide ((b - a).natAbs = 2) && alternatingPol (b :: rest)

/-- numpy slice l[::2]. -/
def everyOther {α} : List α → List α
  | [] => []
  | [a] => [a]
  | a :: _ :: rest => a :: everyOther rest

/-- numpy slice l[1::2]. -/
def everyOtherOdd {α} (l : List α) : List α := everyOther l.tail

/-- Models `out = np.empty(n); out[::2] = evens; out[1::2] = odds`, including
the numpy broadcast rule: a slice assignment succeeds only when the source has
the slice's length or length one. -/
def scatterEvenOdd (n : ℕ) (evens odds : List ℚ) : Option (List ℚ) :=
  let ne := (n + 1) / 2
  let no := n / 2
  let ev := if evens.length = 1 then List.replicate ne (evens.headD 0) else evens
  let od := if odds.length = 1 then List.replicate no (odds.headD 0) else odds
  if ev.length = ne ∧ od.length = no then
    some ((List.range n).map
      (fun i => if i % 2 = 0 then ev.getD (i / 2) 0 else od.getD (i / 2) 0))
  else none

/-- `src[assigned[assigned != -1]]`: keep the attributed indices and use them
to fancy-index the source array. -/
def indexAssigned (src : List ℚ) (assigned : List ℤ) : Option (List ℚ) :=
  selectIdx src ((assigned.filter (fun z => z != -1)).map Int.toNat)

/-- Modelled from the spec: `ibllib.dsp.utils.sync_timestamps` (the Clock
Fitter of spec section 4.2) is not under src/; per the spec it fits an affine
model b ≈ offset + (1 + drift) · a by least squares on the two series and
returns the mapping function together with the measured drift in ppm. -/
def sync_timestamps (ta tb : List ℚ) : (ℚ → ℚ) × ℚ :=
  let n : ℚ := ta.length
  let sx := ta.foldl (· + ·) 0
  let sy := tb.foldl (· + ·) 0
  let sxy := (List.zipWith (· * ·) ta tb).foldl (· + ·) 0
  let sxx := (ta.map (fun x => x * x)).foldl (· + ·) 0
  let den := n * sxx - sx * sx
  let slope := if den = 0 then 1 else (n * sxy - sx * sy) / den
  let intercept := if n = 0 then 0 else (sy - slope * sx) / n
  (fun t => slope * t + intercept, (slope - 1) * 1000000)

/-- The mismatch branch of `groom_pin_state`: when the number of pin-state
flips differs from the number of audio fronts, attribute each pin uptick
(downtick) to the first audio onset (offset) within TOL = 2 seconds of it,
drop the unattributed ones, and scatter the kept audio times into the
even/odd slots of an array with one entry per pin-state flip. -/
def groomAudio (g : GpioQ) (audio : FrontsQ) (ts : List ℚ) : Option FrontsQ :=
  if g.indices.length == audio.times.length then some audio
  else
    let low2high := filterByMask g.indices (g.polarities.map (fun p => p == 1))
    let high2low := filterByMask g.indices (g.polarities.map (fun p => p == -1))
    if high2low.length ≤ low2high.length then
      match selectIdx ts low2high, selectIdx ts high2low with
      | some tsU, some tsD =>
        match tsU.head?, tsD.head?, audio.times.head?, audio.times[1]? with
        | some u0, some d0, some a0, some a1 =>
          let audioOn := everyOther audio.times
          let audioOff := everyOtherOdd audio.times
          match indexAssigned audioOn
              (attribute_times (audioOn.map (fun t => t - a0))
                (tsU.map (fun t => t - u0)) 2 true Take.first),
            indexAssigned audioOff
              (attribute_times (audioOff.map (fun t => t - a1))
                (tsD.map (fun t => t - d0)) 2 true Take.first) with
          | some onsets2, some offsets2 =>
            match scatterEvenOdd g.indices.length onsets2 offsets2 with
            | some times2 => some { times := times2, polarities := g.polarities }
            | none => none
          | _, _ => none
        | _, _, _, _ => none
      | _, _ => none
    else none

/-- `groom_pin_state(gpio, audio, ts)` of camera.py: align the GPIO pin state
to the audio TTLs.  Returns (GPIO FPGA-aligned times, groomed audio fronts,
frame times in FPGA time); `none` models any raised assert, IndexError or
broadcast ValueError.  The `unassigned` setdiff computations of the source
feed only debug logging and are omitted; the conditional drop of
`assigned[~missed]` is modelled by an unconditional filter, which agrees with
the code because the filter is the identity when nothing is missed. -/
def groom_pin_state (gpio : GpioQ) (audio : FrontsQ) (ts : List ℚ) :
    Option (List ℚ × FrontsQ × List ℚ) :=
  let keep := gpio.indices.map (fun i => decide (i < ts.length))
  let g := if gpio.indices.any (fun i => decide (ts.length ≤ i)) then
      GpioQ.mk (filterByMask gpio.indices keep) (filterByMask gpio.polarities keep)
    else gpio
  if (audio.times.length == audio.polarities.length)
      && alternatingPol audio.polarities
      && (audio.polarities.head? == some 1)
      && allDiffPos audio.times
      && g.indices.any (fun i => i != 0)
      && (g.polarities.head? == some 1) then
    match groomAudio g audio ts with
    | some audio2 =>
      match selectIdx ts g.indices with
      | some tsFronts =>
        let fcn := (sync_timestamps tsFronts audio2.times).1
        some (tsFronts.map fcn, audio2, ts.map fcn)
      | none => none
    | none => none
  else none

/-- C5 (code bug): an input satisfying the external data contracts on which
`groom_pin_state` raises.  The third pin-state rise (camera time 1000) matches
no audio onset within the 2 s tolerance; the code drops it with a warning,
clearly intending to continue best-effort, but the subsequent scatter
`audio_['times'][::2] = onsets_` then assigns the 2 kept onset times into the
3 even slots and raises a broadcast ValueError, so grooming is fatal here. -/
theorem groom_pin_state_unattributable_rise_fails :
    (groom_pin_state (GpioQ.mk [0, 1, 2, 3, 4, 5] [1, -1, 1, -1, 1, -1])
      (FrontsQ.mk [50, 101/2, 52, 105/2, 54, 109/2, 56, 113/2]
        [1, -1, 1, -1, 1, -1, 1, -1])
      [0, 1, 2, 3, 1000, 1001]).isNone = true := by
  with_unfolding_all rfl

/-- One Bpod trial's frame-sync events: the Port1In (rising) and Port1Out
(falling) event-time lists of 'Events timestamps'; `none` when the key is
absent (no such events occurred in the trial). -/
structure BpodTrial where
  pin : Option (List ℚ)
  pout : Option (List ℚ)

/-- Per-trial front grooming of `_times_from_bpod`: both channels must be
nonempty (`pout[0]` / `pin[0]` raise IndexError otherwise); a stray leading
falling edge is dropped when it precedes the first rising edge; then the
RISING list is truncated to the falling count (`pin = pin[:pout.size]`). -/
def trialFronts : List ℚ → List ℚ → Option (List ℚ × List ℚ)
  | a :: l, b :: p =>
    let pout := if b < a then p else b :: p
    some ((a :: l).take pout.length, pout)
  | _, _ => none

/-- numpy elementwise subtraction a - b under the 1-d broadcast rule: equal
lengths, or one side of length one; `none` is the ValueError. -/
def subBroadcast (a b : List ℚ) : Option (List ℚ) :=
  if a.length = b.length then some (List.zipWith (fun x y => x - y) a b)
  else if a.length = 1 then some (b.map (fun y => a.headD 0 - y))
  else if b.length = 1 then some (a.map (fun x => x - b.headD 0))
  else none

/-- The out-of-sync tests of `_times_from_bpod` (run for trials after the
first): test1 checks pulse lengths within 10% of their median, test2 checks
successive periods within 110 µs of the trial median.  numpy corners
modelled: np.all over an empty comparison is True; a NaN median (empty data,
`medianQ = none`) or a zero median make every elementwise 10% comparison
False.  The result only feeds the n_out_of_sync diagnostic counter. -/
def outOfSync (pin pout : List ℚ) : Option Bool :=
  match subBroadcast pin pout with
  | none => none
  | some d =>
    let test1 := if d.isEmpty then true else
      match medianQ d with
      | some m => if m = 0 then false else d.all (fun x => absQ (1 - x / m) < 1/10)
      | none => false
    let dp := diffQ pin
    let test2 := if dp.isEmpty then true else
      match medianQ dp with
      | some m => dp.all (fun x => absQ (x - m) ≤ 11/100000)
      | none => false
    some (!(test1 && test2))

/-- The per-trial loop of `_times_from_bpod`, carrying the original trial
index (the out-of-sync tests are skipped for trial index 0).  Returns the
kept per-trial rising-edge time arrays and the out-of-sync count.  A trial
with no Port1In key is skipped: `np.all(np.array(None)) is None` holds by
numpy's object-array reduction quirk, triggering `continue`. -/
def bpodLoopAux : ℕ → List BpodTrial → Option (List (List ℚ) × ℕ)
  | _, [] => some ([], 0)
  | ind, t :: rest =>
    match t.pin with
    | none => bpodLoopAux (ind + 1) rest
    | some l =>
      match t.pout with
      | none => none
      | some p =>
        match trialFronts l p with
        | none => none
        | some fr =>
          match (if ind = 0 then some 0 else
              match outOfSync fr.1 fr.2 with
              | some b => some (if b then (1 : ℕ) else 0)
              | none => none),
            bpodLoopAux (ind + 1) rest with
          | some k, some (cams, cnt) => some (fr.1 :: cams, k + cnt)
          | _, _ => none

/-- The synthetic timestamps inserted into one intertrial gap:
`cam_time[-1] + dur / (nmiss + 1) * (np.arange(nmiss) + 1)` (empty for
nmiss ≤ 0, like np.arange of a nonpositive count). -/
def gapFill (cl dur : ℚ) (nmiss : ℤ) : List ℚ :=
  (List.range nmiss.toNat).map
    (fun (k : ℕ) => cl + dur / ((nmiss : ℚ) + 1) * ((k : ℚ) + 1))

/-- numpy basic-slice assignment `arr[lo:hi] = vals` (step 1): the slice is
clamped to the array; assignment succeeds when vals has the slice's length,
or length one (broadcast); otherwise ValueError. -/
def writeSlice (l : List ℚ) (lo hi : ℤ) (vals : List ℚ) : Option (List ℚ) :=
  let a := sliceClamp l.length lo
  let b := sliceClamp l.length hi
  let cnt := b - a
  if vals.length = cnt then
    some (l.take a ++ vals ++ l.drop (a + cnt))
  else if vals.length = 1 then
    some (l.take a ++ List.replicate cnt (vals.headD 0) ++ l.drop (a + cnt))
  else none

/-- The frame_times filling loop of `_times_from_bpod`: write each trial's
pulse times at the running position ii, then (except after the last trial,
where the loop breaks) the gap fill for the following intertrial gap. -/
def fillLoop (missed : List ℤ) (durations : List ℚ) :
    List ℚ → ℤ → ℕ → List (List ℚ) → Option (List ℚ)
  | ft, _, _, [] => some ft
  | ft, ii, k, c :: rest =>
    match writeSlice ft ii (ii + (c.length : ℤ)) c with
    | none => none
    | some ft1 =>
      match rest with
      | [] => some ft1
      | _ :: _ =>
        match c.getLast? with
        | none => none
        | some cl =>
          match writeSlice ft1 (ii + (c.length : ℤ))
              (ii + (c.length : ℤ) + missed.getD k 0)
              (gapFill cl (durations.getD k 0) (missed.getD k 0)) with
          | none => none
          | some ft2 =>
            fillLoop missed durations ft2 (ii + (c.length : ℤ) + missed.getD k 0)
              (k + 1) rest

/-- The final `assert all(np.diff(frame_times) > 0)` of `_times_from_bpod`. -/
def finalMonoCheck (l : List ℚ) : Option (List ℚ) :=
  if allDiffPos l then some l else none

/-- `_times_from_bpod` up to (excluding) its final strictly-increasing
assert.  `nframes` is the frame count reported by the video file (a float
from cv2).  numpy corners modelled: np.nanmedian skips the NaN medians of
trials with fewer than two pulses (`filterMap`); a NaN global period (no
usable trial) makes `np.round` raise on nonempty gaps and makes the video
extension produce NaN times the final assert would reject, both `none`;
np.zeros of a negative size is the ValueError case. -/
def timesFromBpodPre (trials : List BpodTrial) (nframes : ℚ) :
    Option (List ℚ) :=
  match bpodLoopAux 0 trials with
  | none => none
  | some (cams, _) =>
    match cams.mapM (fun c => c.head?), cams.mapM (fun c => c.getLast?) with
    | some tFirst, some tLast =>
      let medO := medianQ (cams.filterMap (fun c => medianQ (diffQ c)))
      let durations := List.zipWith (fun a b => a - b) tFirst.tail tLast.dropLast
      match (if durations.isEmpty then some ([] : List ℤ) else
          match medO with
          | some m => some (durations.map (fun d => roundHalfEven (d * (1 / m)) - 1))
          | none => none) with
      | none => none
      | some missed =>
        let total : ℕ := cams.foldl (fun acc c => acc + c.length) 0
        let sz : ℤ := (total : ℤ) + missed.foldl (· + ·) 0
        if sz < 0 then none
        else
          match fillLoop missed durations (List.replicate sz.toNat 0) 0 0 cams with
          | none => none
          | some ft =>
            if nframes > (ft.length : ℚ) then
              match medO, ft.getLast? with
              | some m, some last =>
                some (ft ++ (List.range (⌊nframes⌋ - (ft.length : ℤ)).toNat).map
                  (fun (k : ℕ) => ((k : ℚ) + 1) / (1 / m) + last))
              | _, _ => none
            else some ft
    | _, _ => none

/-- `CameraTimestampsBpod._times_from_bpod` of camera.py. -/
def timesFromBpod (trials : List BpodTrial) (nframes : ℚ) : Option (List ℚ) :=
  (timesFromBpodPre trials nframes).bind finalMonoCheck

/-- C6: a trial whose frame-sync channel has no detected edges (no Port1In
key, so `np.all(np.array(None)) is None` selects `continue`) is discarded,
and the loop proceeds over the remaining trials with only the trial index
advanced, whatever its Port1Out channel holds. -/
theorem times_from_bpod_skips_edgeless_trial
    (p : Option (List ℚ)) (i : ℕ) (rest : List BpodTrial) :
    bpodLoopAux i (BpodTrial.mk none p :: rest) = bpodLoopAux (i + 1) rest := rfl

/-- C7 counterexample: pin = [0, 1], pout = [0.5, 1.5, 2.5]: the code keeps
all three falling edges and truncates the rising list instead, so the
falling list's length does not match the rising-edge count — refuting the
claim that falling edges are truncated to the rising count. -/
theorem trialFronts_falling_not_truncated_counterexample :
    trialFronts [0, 1] [1/2, 3/2, 5/2] = some ([0, 1], [1/2, 3/2, 5/2]) ∧
      ¬ (([1/2, 3/2, 5/2] : List ℚ).length = ([0, 1] : List ℚ).length) := by
  constructor
  · exact of_decide_eq_true (by with_unfolding_all rfl)
  · decide

/-- C7 amended: per trial, after dropping a stray leading falling edge when
the first falling edge precedes the first rising edge, it is the rising-edge
list that is truncated (as a prefix) to the falling-edge count, the falling
edges being kept: `pin = pin[:pout.size]`. -/
theorem trialFronts_truncates_rising_keeps_falling
    (a b : ℚ) (l p : List ℚ) :
    trialFronts (a :: l) (b :: p) =
      some ((a :: l).take (if b < a then p else b :: p).length,
        (if b < a then p else b :: p)) ∧
      ((a :: l).take (if b < a then p else b :: p).length).length =
        min (if b < a then p else b :: p).length (a :: l).length := by
  constructor
  · rfl
  · exact List.length_take _ _

theorem map_range_chain (g : ℕ → ℚ) (δ : ℚ) (N : ℕ)
    (hg : ∀ k, g (k + 1) - g k = δ) :
    List.Chain' (fun a b => b - a = δ) ((List.range N).map g) := by
  rw [List.chain'_map]
  cases N with
  | zero => simp
  | succ M =>
    rw [List.chain'_range_succ]
    intro m _
    exact hg m

theorem gapFill_endpoints (cl dur : ℚ) (n : ℤ) (hn : 0 ≤ n) :
    cl :: (gapFill cl dur n ++ [cl + dur]) =
      (List.range (n.toNat + 2)).map
        (fun (k : ℕ) => cl + dur / ((n : ℚ) + 1) * (k : ℚ)) := by
  have hm : ((n.toNat : ℚ)) = (n : ℚ) := by exact_mod_cast Int.toNat_of_nonneg hn
  have h0 : (0 : ℚ) ≤ (n : ℚ) := by exact_mod_cast hn
  have hne : ((n : ℚ) + 1) ≠ 0 := ne_of_gt (by linarith)
  rw [show n.toNat + 2 = (n.toNat + 1) + 1 from rfl, List.range_succ,
    List.map_append, List.range_succ_eq_map, List.map_cons, List.map_map]
  simp only [Nat.cast_zero, mul_zero, add_zero, List.map_nil, List.cons_append]
  congr 1
  congr 1
  · simp only [gapFill]
    refine List.map_congr_left ?_
    intro k _
    simp only [Function.comp_apply]
    push_cast
    ring
  · simp only [List.map_cons, List.map_nil]
    have : cl + dur = cl + dur / ((n : ℚ) + 1) * ((n.toNat + 1 : ℕ) : ℚ) := by
      push_cast [hm]
      rw [div_mul_cancel₀ _ hne]
    rw [← this]

/-- C8: (1) the concrete two-trial scenario: pulse times [0, 0.1, 0.2] and
[0.5, 0.6, 0.7] (gap 0.3, global frame rate 10 = 1/median of the per-trial
median periods) yield exactly round(0.3·10)−1 = 2 interpolated timestamps,
0.3 and 0.4, evenly spaced in the gap; (2) the gap fill inserts exactly its
computed count of timestamps (clamped at 0); (3) the inserted timestamps
divide the gap evenly: from the last pulse through the gap to the next
trial's first pulse, every consecutive difference is gap/(count+1). -/
theorem times_from_bpod_gap_interpolation :
    timesFromBpod
        [BpodTrial.mk (some [0, 1/10, 1/5]) (some [1/20, 3/20, 1/4]),
         BpodTrial.mk (some [1/2, 3/5, 7/10]) (some [11/20, 13/20, 3/4])] 8 =
      some [0, 1/10, 1/5, 3/10, 2/5, 1/2, 3/5, 7/10] ∧
    (∀ (cl dur : ℚ) (n : ℤ), (gapFill cl dur n).length = n.toNat) ∧
    (∀ (cl dur : ℚ) (n : ℤ), 0 ≤ n →
      List.Chain' (fun a b => b - a = dur / ((n : ℚ) + 1))
        (cl :: (gapFill cl dur n ++ [cl + dur]))) := by
  refine ⟨of_decide_eq_true (by with_unfolding_all rfl), ?_, ?_⟩
  · intro cl dur n
    simp [gapFill]
  · intro cl dur n hn
    rw [gapFill_endpoints cl dur n hn]
    refine map_range_chain _ _ _ ?_
    intro k
    push_cast
    ring

/-- C9: (1) whenever `_times_from_bpod` returns, the final per-frame
timestamp array is strictly increasing — `assert all(np.diff(frame_times) > 0)`
is the last step before returning; (2) a synthetic monotone-violating input
(a single trial with non-increasing pulse times) raises instead of
returning. -/
theorem times_from_bpod_strictly_increasing :
    (∀ (trials : List BpodTrial) (nframes : ℚ) (out : List ℚ),
      timesFromBpod trials nframes = some out → out.Chain' (· < ·)) ∧
    (timesFromBpod
        [BpodTrial.mk (some [0, 1/5, 1/10]) (some [1/100, 21/100, 11/100])]
        3).isNone = true := by
  constructor
  · intro trials nframes out h
    unfold timesFromBpod at h
    cases hpre : timesFromBpodPre trials nframes with
    | none => rw [hpre] at h; exact Option.noConfusion h
    | some ft =>
      rw [hpre] at h
      replace h : finalMonoCheck ft = some out := h
      unfold finalMonoCheck at h
      split at h
      · rename_i hmono
        cases h
        exact (allDiffPos_iff_chain out).mp hmono
      · exact Option.noConfusion h
  · with_unfolding_all rfl

/-- Witness for C9, part (1), at the concrete C8 scenario. -/
theorem times_from_bpod_strictly_increasing_witness :
    ([0, 1/10, 1/5, 3/10, 2/5, 1/2, 3/5, 7/10] : List ℚ).Chain' (· < ·) :=
  times_from_bpod_strictly_increasing.1
    [BpodTrial.mk (some [0, 1/10, 1/5]) (some [1/20, 3/20, 1/4]),
     BpodTrial.mk (some [1/2, 3/5, 7/10]) (some [11/20, 13/20, 3/4])] 8
    [0, 1/10, 1/5, 3/10, 2/5, 1/2, 3/5, 7/10]
    (of_decide_eq_true (by with_unfolding_all rfl))

/-- Number of expected tone cues of the passive protocol. -/
def NTONES : ℕ := 40

/-- Number of expected noise cues of the passive protocol. -/
def NNOISES : ℕ := 40

/-- `audio["times"][audio["polarities"] > 0]`: the sound onsets. -/
def soundOn (audio : FrontsQ) : List ℚ :=
  filterByMask audio.times (audio.polarities.map (fun p => decide (0 < p)))

/-- `audio["times"][audio["polarities"] < 0]`: the sound offsets. -/
def soundOff (audio : FrontsQ) : List ℚ :=
  filterByMask audio.times (audio.polarities.map (fun p => decide (p < 0)))

/-- The (onset, offset) pairs; `p.2 - p.1` is the elementwise duration
`diff = soundOff_times - soundOn_times` (the two arrays have equal length
whenever the count asserts pass). -/
def soundPairs (audio : FrontsQ) : List (ℚ × ℚ) :=
  (soundOn audio).zip (soundOff audio)

/-- Sounds classified as tones: duration strictly below 0.3 s. -/
def tonePairs (audio : FrontsQ) : List (ℚ × ℚ) :=
  (soundPairs audio).filter (fun p => decide (p.2 - p.1 < 3/10))

/-- Sounds classified as noises: duration strictly above 0.3 s. -/
def noisePairs (audio : FrontsQ) : List (ℚ × ℚ) :=
  (soundPairs audio).filter (fun p => decide (3/10 < p.2 - p.1))

/-- `_extract_passiveAudio_intervals(audio)` of passive_script_2.py: asserts
NTONES + NNOISES onsets and as many offsets, splits the sounds by duration
below/above 0.3 s, asserts the class counts, and returns the tone and noise
(start, stop) interval tables.  One boolean mask indexes the onset and offset
arrays of each class, so their counts coincide by construction and the four
count asserts reduce to two; the two np.allclose lines of the source discard
their results and are no-ops. -/
def extract_passiveAudio_intervals (audio : FrontsQ) :
    Option (List (ℚ × ℚ) × List (ℚ × ℚ)) :=
  if (soundOn audio).length = NTONES + NNOISES
      ∧ (soundOff audio).length = NTONES + NNOISES then
    if (tonePairs audio).length = NTONES ∧ (noisePairs audio).length = NNOISES then
      some (tonePairs audio, noisePairs audio)
    else none
  else none

theorem filter_two_le {α} (p q : α → Bool) :
    ∀ (l : List α), (∀ x ∈ l, ¬(p x = true ∧ q x = true)) →
      (l.filter p).length + (l.filter q).length ≤ l.length := by
  intro l
  induction l with
  | nil => simp
  | cons a t ih =>
    intro hall
    have ht := ih (fun x hx => hall x (List.mem_cons_of_mem a hx))
    have ha := hall a (List.mem_cons_self a t)
    rw [List.filter_cons, List.filter_cons]
    by_cases hp : p a = true
    · have hq : ¬ q a = true := fun hqa => ha ⟨hp, hqa⟩
      rw [if_pos hp, if_neg hq]
      simp only [List.length_cons]
      omega
    · rw [if_neg hp]
      by_cases hq : q a = true
      · rw [if_pos hq]
        simp only [List.length_cons]
        omega
      · rw [if_neg hq]
        simp only [List.length_cons]
        omega

theorem filter_two_lt {α} (p q : α → Bool) :
    ∀ (l : List α), (∀ x ∈ l, ¬(p x = true ∧ q x = true)) →
      (∃ x ∈ l, p x = false ∧ q x = false) →
      (l.filter p).length + (l.filter q).length < l.length := by
  intro l
  induction l with
  | nil =>
    intro _ hex
    simp at hex
  | cons a t ih =>
    intro hall hex
    obtain ⟨x, hx, hpx, hqx⟩ := hex
    rw [List.filter_cons, List.filter_cons]
    rcases List.mem_cons.mp hx with rfl | hxt
    · rw [if_neg (by simp [hpx]), if_neg (by simp [hqx])]
      have := filter_two_le p q t (fun y hy => hall y (List.mem_cons_of_mem _ hy))
      simp only [List.length_cons]
      omega
    · have hlt := ih (fun y hy => hall y (List.mem_cons_of_mem _ hy)) ⟨x, hxt, hpx, hqx⟩
      by_cases hp : p a = true
      · have hq : ¬ q a = true := fun hqa => hall a (List.mem_cons_self a t) ⟨hp, hqa⟩
        rw [if_pos hp, if_neg hq]
        simp only [List.length_cons]
        omega
      · rw [if_neg hp]
        by_cases hq : q a = true
        · rw [if_pos hq]
          simp only [List.length_cons]
          omega
        · rw [if_neg hq]
          simp only [List.length_cons]
          omega

/-- C10: tones are the sounds of duration strictly below 0.3 s and noises
those strictly above; a sound lasting exactly 0.3 s falls in neither class,
the tone and noise counts then sum to strictly less than the number of
onsets, and the extraction fails its count asserts rather than classifying
it. -/
theorem passiveAudio_boundary_duration_unclassified (audio : FrontsQ)
    (hOn : (soundOn audio).length = NTONES + NNOISES)
    (hOff : (soundOff audio).length = NTONES + NNOISES)
    (hEx : ∃ p ∈ soundPairs audio, p.2 - p.1 = 3/10) :
    (∀ p ∈ soundPairs audio, p.2 - p.1 = 3/10 →
      p ∉ tonePairs audio ∧ p ∉ noisePairs audio) ∧
    (tonePairs audio).length + (noisePairs audio).length <
      (soundOn audio).length ∧
    extract_passiveAudio_intervals audio = none := by
  have hpairs : (soundPairs audio).length = NTONES + NNOISES := by
    rw [soundPairs, List.length_zip, hOn, hOff, min_self]
  have hall : ∀ x ∈ soundPairs audio,
      ¬((decide (x.2 - x.1 < 3/10)) = true ∧ (decide (3/10 < x.2 - x.1)) = true) := by
    intro x _ hcon
    obtain ⟨h1, h2⟩ := hcon
    exact absurd (of_decide_eq_true h2) (not_lt_of_lt (of_decide_eq_true h1))
  have hexf : ∃ x ∈ soundPairs audio,
      (decide (x.2 - x.1 < 3/10)) = false ∧ (decide (3/10 < x.2 - x.1)) = false := by
    obtain ⟨x, hx, hdx⟩ := hEx
    exact ⟨x, hx, decide_eq_false (by rw [hdx]; exact lt_irrefl _),
      decide_eq_false (by rw [hdx]; exact lt_irrefl _)⟩
  have hcount : (tonePairs audio).length + (noisePairs audio).length <
      (soundPairs audio).length :=
    filter_two_lt _ _ (soundPairs audio) hall hexf
  refine ⟨?_, ?_, ?_⟩
  · intro p _ hdur
    constructor
    · intro hmem
      have := (List.mem_filter.mp hmem).2
      rw [hdur] at this
      exact absurd (of_decide_eq_true this) (lt_irrefl _)
    · intro hmem
      have := (List.mem_filter.mp hmem).2
      rw [hdur] at this
      exact absurd (of_decide_eq_true this) (lt_irrefl _)
  · rw [hOn, ← hpairs]
    exact hcount
  · rw [extract_passiveAudio_intervals, if_pos ⟨hOn, hOff⟩, if_neg]
    intro hcon
    rw [hcon.1, hcon.2, ← hpairs] at hcount
    omega

/-- A passive-audio input with 80 alternating sound fronts in which the last
sound lasts exactly 0.3 s and the other 79 last 0.1 s. -/
def c10audio : FrontsQ :=
  FrontsQ.mk
    (((List.range 80).map (fun (i : ℕ) =>
      [(i : ℚ), (i : ℚ) + (if i = 79 then 3/10 else 1/10)])).flatten)
    (((List.range 80).map (fun _ => [(1 : ℤ), -1])).flatten)

/-- Witness for C10: the concrete boundary-duration input fails extraction. -/
theorem passiveAudio_boundary_duration_unclassified_witness :
    extract_passiveAudio_intervals c10audio = none :=
  (passiveAudio_boundary_duration_unclassified c10audio
    (of_decide_eq_true (by with_unfolding_all rfl))
    (of_decide_eq_true (by with_unfolding_all rfl))
    (of_decide_eq_true (by with_unfolding_all rfl))).2.2

/-- C8 counterexample: two trials with pulse times [0, 0.1, 0.2] and
[0.25, 0.35, 0.45] (period 0.1, gap 0.05): the claimed insertion count is
round(0.05·10) − 1 = −1, but the code inserts nothing — worse, `ii` moves
back by one and the next trial overwrites the previous trial's last pulse
time 0.2, so the run returns only 5 timestamps for 6 recorded pulses. -/
theorem times_from_bpod_negative_gap_counterexample :
    timesFromBpod
        [BpodTrial.mk (some [0, 1/10, 1/5]) (some [1/20, 3/20, 1/4]),
         BpodTrial.mk (some [1/4, 7/20, 9/20]) (some [3/10, 2/5, 1/2])] 5 =
      some [0, 1/10, 1/4, 7/20, 9/20] ∧
    roundHalfEven ((1/4 - 1/5) * 10) - 1 = -1 ∧
    (gapFill (1/5) (1/4 - 1/5) (roundHalfEven ((1/4 - 1/5) * 10) - 1)).length = 0 := by
  refine ⟨of_decide_eq_true (by with_unfolding_all rfl),
    of_decide_eq_true (by with_unfolding_all rfl),
    of_decide_eq_true (by with_unfolding_all rfl)⟩

/-- Witness for the even-spacing part of the amended C8 at the concrete gap
of the two-trial scenario. -/
theorem times_from_bpod_gap_interpolation_witness :
    ((0 : ℤ) ≤ 2) ∧
    List.Chain' (fun a b => b - a = (3/10 : ℚ) / (((2 : ℤ) : ℚ) + 1))
      ((1/5 : ℚ) :: (gapFill (1/5) (3/10) 2 ++ [1/5 + 3/10])) :=
  ⟨by decide, times_from_bpod_gap_interpolation.2.2 (1/5) (3/10) 2 (by decide)⟩
